import Mathlib

/-!
Shallow embedding of `src/main.rs` of the `poker` repository (Monte Carlo
estimation of poker-like hand-category probabilities with jokers acting as
wildcards), together with theorems checking the specification's claims
against the code.

Machine integers of the source (`u8`, `usize`) are modelled by `Nat`: in the
program every count is bounded by the hand size (at most 12), so no
arithmetic in the embedded fragment can overflow, and the one subtraction
(`num_jokers -= fill_to - *val` and the sliding-window update) only happens
when the subtrahend is no larger than the minuend.
-/

namespace Poker

/-- `NUM_RANKS` in the source. -/
def NUM_RANKS : Nat := 13

/-- `NUM_SUITS` in the source. -/
def NUM_SUITS : Nat := 4

/-- `MAX_CARDS` in the source. -/
def MAX_CARDS : Nat := 12

/-- A playing card (struct `Card` in the source): a (suit, rank) pair with
`suit < NUM_SUITS` and `rank < NUM_RANKS`. -/
structure Card where
  suit : Fin 4
  rank : Fin 13
deriving DecidableEq

/-- The number of cards of rank `r` in the hand: one cell of the rank
histogram that `rank_counts` in the source builds by incrementing
`ret[c.rank]` per card. -/
def rcount (cards : List Card) (r : Nat) : Nat :=
  (cards.map fun c => (c.rank : Nat)).count r

/-- `rank_counts` in the source: the rank histogram, a vector of length
`NUM_RANKS` whose cell `r` counts the cards of rank `r`. -/
def rank_counts (cards : List Card) : List Nat :=
  (List.range NUM_RANKS).map (rcount cards)

/-- The number of cards of suit `s` in the hand. -/
def scount (cards : List Card) (s : Nat) : Nat :=
  (cards.map fun c => (c.suit : Nat)).count s

/-- `suit_counts` in the source.  The source reuses the `RankCounts` array
type `[u8; NUM_RANKS]`, so the vector has length `NUM_RANKS = 13` even
though only the first `NUM_SUITS = 4` cells can be nonzero. -/
def suit_counts (cards : List Card) : List Nat :=
  (List.range NUM_RANKS).map (scount cards)

/-- One cell of the straight bitmap built by `ranks_for_straight` in the
source: cell `i + 1` is 1 iff some card has rank `i` (the loop sets
`ret[c.rank + 1] = 1`), and cell `0` mirrors the last cell (`ret[0] =
*ret.last()`), i.e. it is 1 iff an ace (rank 12) is present. -/
def straight_cell (cards : List Card) (i : Nat) : Nat :=
  if i = 0 then (if 12 ∈ cards.map (fun c => (c.rank : Nat)) then 1 else 0)
  else if i - 1 ∈ cards.map (fun c => (c.rank : Nat)) then 1 else 0

/-- `ranks_for_straight` in the source: the straight bitmap of length
`NUM_RANKS + 1 = 14`. -/
def ranks_for_straight (cards : List Card) : List Nat :=
  (List.range (NUM_RANKS + 1)).map (straight_cell cards)

/-- Sum of the window of `size` consecutive cells of `ranks` starting at
position `s` (the running `window_sum` that `is_straight` maintains). -/
def window_sum (ranks : List Nat) (s size : Nat) : Nat :=
  ((ranks.drop s).take size).sum

/-- `is_straight` in the source.  The first disjunct is the check on the
initial window `ranks.iter().take(straight_size)`; the `any` reproduces the
sliding loop `for i in straight_size..ranks.len()`, whose window at loop
index `i = straight_size + k` consists of cells `[k + 1, k + 1 + size)`.
Note the source compares with `==`, not `>=`. -/
def is_straight (cards : List Card) (num_jokers : Nat) (straight_size : Nat) : Bool :=
  let ranks := ranks_for_straight cards
  decide ((ranks.take straight_size).sum + num_jokers = straight_size) ||
    (List.range (ranks.length - straight_size)).any fun k =>
      decide (window_sum ranks (k + 1) straight_size + num_jokers = straight_size)

/-- `is_n_of_a_kind` in the source: the loop early-returns as soon as some
rank's (partial, hence equivalently final) count plus the joker count
reaches `n`, and falls back to `num_jokers >= n`. -/
def is_n_of_a_kind (cards : List Card) (n : Nat) (num_jokers : Nat) : Bool :=
  (rank_counts cards).any (fun c => decide (n ≤ c + num_jokers)) ||
    decide (n ≤ num_jokers)

/-- The `fill_with_jokers` closure of `is_n_and_m_of_a_kind`: top `val` up
to `fill_to` using jokers; `none` models returning `false` (no state
change), `some` returns the updated `(val, num_jokers)` pair. -/
def fill_with_jokers (val : Nat) (fill_to : Nat) (num_jokers : Nat) :
    Option (Nat × Nat) :=
  if fill_to ≤ val then some (val, num_jokers)
  else if val + num_jokers < fill_to then none
  else some (fill_to, num_jokers - (fill_to - val))

/-- The body of `is_n_and_m_of_a_kind` after sorting: fill the largest
count `s0` to `n`, subtract `n`, try to fill the remainder to `m`, and
otherwise try the second largest count `s1` (jokers are only consumed by
successful fills). -/
def nm_core (s0 s1 : Nat) (n m num_jokers : Nat) : Bool :=
  match fill_with_jokers s0 n num_jokers with
  | none => false
  | some (v0, j0) =>
    match fill_with_jokers (v0 - n) m j0 with
    | some _ => true
    | none =>
      match fill_with_jokers s1 m j0 with
      | some _ => true
      | none => false

/-- `is_n_and_m_of_a_kind` in the source: sort the rank histogram in
descending order (`sort_by(|a, b| b.cmp(a))`) and run the two fills on its
top two cells. -/
def is_n_and_m_of_a_kind (cards : List Card) (n m num_jokers : Nat) : Bool :=
  let sorted := List.insertionSort (fun x y => y ≤ x) (rank_counts cards)
  nm_core (sorted.getD 0 0) (sorted.getD 1 0) n m num_jokers

/-- `is_full_house` in the source. -/
def is_full_house (cards : List Card) (num_jokers : Nat) : Bool :=
  is_n_and_m_of_a_kind cards 3 2 num_jokers

/-- `is_two_triplet` in the source. -/
def is_two_triplet (cards : List Card) (num_jokers : Nat) : Bool :=
  is_n_and_m_of_a_kind cards 3 3 num_jokers

/-- `is_full_mansion` in the source. -/
def is_full_mansion (cards : List Card) (num_jokers : Nat) : Bool :=
  is_n_and_m_of_a_kind cards 4 2 num_jokers

/-- The loop of `is_n_pairs` over the rank histogram, carrying the mutable
`num_jokers`: for each odd count a joker (when available) completes the
lone card into one extra pair, then `count / 2` pairs are added.  Returns
the accumulated `num_pairs` and the leftover jokers. -/
def pairs_loop : List Nat → Nat → Nat × Nat
  | [], j => (0, j)
  | c :: rest, j =>
    let step := if c % 2 = 1 ∧ 0 < j then (c / 2 + 1, j - 1) else (c / 2, j)
    let next := pairs_loop rest step.2
    (step.1 + next.1, next.2)

/-- `is_n_pairs` in the source: run the histogram loop, then add
`num_jokers / 2` pairs formed from the leftover jokers. -/
def is_n_pairs (cards : List Card) (n : Nat) (num_jokers : Nat) : Bool :=
  let r := pairs_loop (rank_counts cards) num_jokers
  decide (n ≤ r.1 + r.2 / 2)

/-- `is_two_pair` in the source. -/
def is_two_pair (cards : List Card) (num_jokers : Nat) : Bool :=
  is_n_pairs cards 2 num_jokers

/-- `is_three_pair` in the source. -/
def is_three_pair (cards : List Card) (num_jokers : Nat) : Bool :=
  is_n_pairs cards 3 num_jokers

/-- `is_flush` in the source: some cell of the suit-count vector plus the
jokers reaches `flush_size`. -/
def is_flush (cards : List Card) (num_jokers : Nat) (flush_size : Nat) : Bool :=
  (suit_counts cards).any fun c => decide (flush_size ≤ c + num_jokers)

/-- The per-suit sub-hand built by the `cards_by_suit` partition used by
`is_straight_flush`, `is_flush_house` and `is_flush_n` (cards are pushed in
hand order). -/
def cards_with_suit (cards : List Card) (s : Nat) : List Card :=
  cards.filter fun c => (c.suit : Nat) = s

/-- `is_straight_flush` in the source: some suit's sub-hand is a straight,
with the full joker pool offered to every suit. -/
def is_straight_flush (cards : List Card) (num_jokers : Nat) (size : Nat) : Bool :=
  (List.range NUM_SUITS).any fun s =>
    is_straight (cards_with_suit cards s) num_jokers size

/-- `is_flush_house` in the source. -/
def is_flush_house (cards : List Card) (num_jokers : Nat) : Bool :=
  (List.range NUM_SUITS).any fun s =>
    is_full_house (cards_with_suit cards s) num_jokers

/-- `is_flush_n` in the source. -/
def is_flush_n (cards : List Card) (n : Nat) (num_jokers : Nat) : Bool :=
  (List.range NUM_SUITS).any fun s =>
    is_n_of_a_kind (cards_with_suit cards s) n num_jokers

/-- Modelled from the spec: the intended straight criterion, "the window is
satisfiable iff `window_sum + jokers ≥ size`", over every window of `size`
consecutive cells of the length-14 straight bitmap (window starts
`0 .. 14 - size`). -/
def straight_window_ge (cards : List Card) (num_jokers : Nat) (size : Nat) : Bool :=
  (List.range (NUM_RANKS + 2 - size)).any fun s =>
    decide (size ≤ window_sum (ranks_for_straight cards) s size + num_jokers)

/-- Modelled from the spec: the largest cell of the rank histogram
(`max(RankCounts)`, 0 for an empty hand). -/
def max_rank_count (cards : List Card) : Nat :=
  (rank_counts cards).foldr max 0

/-- Modelled from the spec: the jokers can be split so that one rank
reaches at least `n` copies and a second group reaches at least `m`
copies.  The second group is either the leftover of the same rank after
removing `n` copies (so the rank must reach `n + m` in total) or a
different rank; `n - rcount` jokers (truncated subtraction) top a rank up
to `n`. -/
def can_split (cards : List Card) (n m num_jokers : Nat) : Prop :=
  (∃ r : Fin 13, n + m ≤ rcount cards r + num_jokers) ∨
    (∃ r s : Fin 13, r ≠ s ∧
      (n - rcount cards r) + (m - rcount cards s) ≤ num_jokers)

/-- Modelled from the spec: the maximum number of pairs formable from a
rank histogram plus `j` jokers-as-wildcards.  Each rank in turn receives
`t ≤ j` wildcards and contributes `(count + t) / 2` pairs; leftover
wildcards pair up among themselves (`j / 2`). -/
def max_pairs : List Nat → Nat → Nat
  | [], j => j / 2
  | c :: rest, j =>
    (Finset.range (j + 1)).sup fun t => (c + t) / 2 + max_pairs rest (j - t)

/-- The command-line arguments (struct `Args` in the source). -/
structure Args where
  cards : Nat
  decks : Nat
  jokers : Nat
  hand_size : Nat

/-- The category names that `main` registers unconditionally. -/
def base_category_names : List String :=
  ["Pair", "3oak", "4oak", "5oak", "2 pair"]

/-- The category names `main` adds for `--hand-size 5`. -/
def hand5_category_names : List String :=
  ["Full House", "Flush House", "Strt Flush", "Flush 5"]

/-- The category names `main` adds for `--hand-size 6`. -/
def hand6_category_names : List String :=
  ["3 pair", "6oak", "2 triplet", "Straight", "Flush", "Full Mansion",
   "Strt Flush", "Flush 6"]

/-- The argument-validation flow of `main` before the sampling loop:
`--cards` above `MAX_CARDS` prints an error and exits with status 1, an
unsupported `--hand-size` likewise; otherwise `main` reaches the sampling
loop with the enabled category list.  `Except.error` carries the exit
status of the early `std::process::exit` call. -/
def main_flow (args : Args) : Except Nat (List String) :=
  if MAX_CARDS < args.cards then Except.error 1
  else if args.hand_size = 5 then
    Except.ok (base_category_names ++ hand5_category_names)
  else if args.hand_size = 6 then
    Except.ok (base_category_names ++ hand6_category_names)
  else Except.error 1

/-! ## Theorems about the claims -/

/-- C1: the implementation's equality test `window_sum + jokers = size`
does not decide the same predicate as the `window_sum + jokers ≥ size`
criterion.  On the empty hand with 6 jokers and straight size 5 (a legal
hand: 0 + 6 ≤ 12) every window satisfies the `≥` criterion, yet
`is_straight` returns `false` because every window sum is 0 and
`0 + 6 ≠ 5`. -/
theorem is_straight_eq_test_differs_from_ge_criterion :
    is_straight [] 6 5 = false ∧ straight_window_ge [] 6 5 = true := by
  constructor <;> rfl

/-- C2: the category predicates are not all monotone in the joker count:
`is_straight` with size 5 holds on the empty hand with 5 jokers but fails
with 6 jokers. -/
theorem is_straight_not_monotone_in_jokers :
    is_straight [] 5 5 = true ∧ is_straight [] 6 5 = false := by
  constructor <;> rfl

/-- C3: joker saturation fails for `is_straight`: on the empty hand with
straight size 6 (the configuration the program uses for `--hand-size 6`
with the default 7 drawn cards) 7 jokers are at least the threshold, yet
the predicate returns `false`. -/
theorem is_straight_empty_saturation_fails :
    is_straight [] 7 6 = false ∧ 6 ≤ 7 := by
  constructor
  · rfl
  · omega

/-- C4: `is_straight_flush` does not imply `is_straight` for the same
size: on the hand {suit 0 rank 3, suit 1 rank 8} with 5 jokers, the suit-0
sub-hand has a window of sum 0 (so `0 + 5 = 5` makes it a straight), but
in the full hand every 5-cell window contains exactly one of the two set
cells, so every window sum is 1 and `1 + 5 ≠ 5`.  (`is_flush` does hold
here, so it is the straight conjunct that fails.) -/
theorem straight_flush_without_straight :
    is_straight_flush [⟨0, 3⟩, ⟨1, 8⟩] 5 5 = true ∧
      is_straight [⟨0, 3⟩, ⟨1, 8⟩] 5 5 = false ∧
      is_flush [⟨0, 3⟩, ⟨1, 8⟩] 5 5 = true := by
  refine ⟨?_, ?_, ?_⟩ <;> rfl

/-- C8: with zero jokers and straight size 5, the ace-low hand
{A, 2, 3, 4, 5} (ranks 12, 0, 1, 2, 3) is a straight via the mirrored
cell 0, while {K, A, 2, 3, 4} (ranks 11, 12, 0, 1, 2) is not: no
wrap-around beyond the ace-low case. -/
theorem ace_low_straight_and_no_wraparound :
    is_straight [⟨0, 12⟩, ⟨0, 0⟩, ⟨0, 1⟩, ⟨0, 2⟩, ⟨0, 3⟩] 0 5 = true ∧
      is_straight [⟨0, 11⟩, ⟨0, 12⟩, ⟨0, 0⟩, ⟨0, 1⟩, ⟨0, 2⟩] 0 5 = false := by
  constructor <;> rfl

/-- C9: the validation flow of `main` exits early with a nonzero status
exactly when `--cards` exceeds `MAX_CARDS = 12` or `--hand-size` is
neither 5 nor 6; otherwise it reaches the sampling stage with the enabled
category catalog. -/
theorem main_flow_error_iff_invalid_args (args : Args) :
    (∃ code, main_flow args = Except.error code ∧ code ≠ 0) ↔
      (MAX_CARDS < args.cards ∨ (args.hand_size ≠ 5 ∧ args.hand_size ≠ 6)) := by
  unfold main_flow
  split_ifs with h1 h2 h3 <;> simp_all

/-- The `any`-plus-fallback test of `is_n_of_a_kind` over an arbitrary
count list equals the comparison of `n` with the largest count plus the
jokers. -/
theorem any_count_eq_foldr_max (l : List Nat) (n j : Nat) :
    (l.any (fun c => decide (n ≤ c + j)) || decide (n ≤ j)) =
      decide (n ≤ l.foldr max 0 + j) := by
  induction l with
  | nil => simp
  | cons c rest ih =>
    simp only [List.any_cons, List.foldr_cons, Bool.or_assoc, ih]
    rw [← Bool.decide_or]
    apply decide_eq_decide.mpr
    rcases Nat.le_total c (rest.foldr max 0) with h | h
    · rw [max_eq_right h]; omega
    · rw [max_eq_left h]; omega

/-- C7: `is_n_of_a_kind cards n jokers` returns true exactly when
`max(RankCounts) + jokers ≥ n`, the maximum being 0 on an empty histogram;
in particular it is true on empty cards with `n = 0` and true whenever
`jokers ≥ n` (both follow since `max_rank_count` is nonnegative). -/
theorem is_n_of_a_kind_iff_max_rank_count (cards : List Card) (n j : Nat) :
    is_n_of_a_kind cards n j = decide (n ≤ max_rank_count cards + j) := by
  unfold is_n_of_a_kind max_rank_count
  exact any_count_eq_foldr_max (rank_counts cards) n j

/-- The straight bitmap only depends on the multiset of ranks. -/
theorem ranks_for_straight_congr (c1 c2 : List Card)
    (h : (c1.map fun c => (c.rank : Nat)).Perm (c2.map fun c => (c.rank : Nat))) :
    ranks_for_straight c1 = ranks_for_straight c2 := by
  unfold ranks_for_straight
  refine List.map_congr_left fun i _ => ?_
  unfold straight_cell
  by_cases hi : i = 0 <;> simp [hi, h.mem_iff]

/-- C10: `is_straight` never reads the suit of any card: two card lists
with the same multiset of ranks (and the same joker count and size) give
the same result. -/
theorem is_straight_ignores_suits (c1 c2 : List Card) (j size : Nat)
    (h : (c1.map fun c => (c.rank : Nat)).Perm (c2.map fun c => (c.rank : Nat))) :
    is_straight c1 j size = is_straight c2 j size := by
  unfold is_straight
  rw [ranks_for_straight_congr c1 c2 h]

/-- Witness for C10 at a concrete input: the hands {♠5, ♥7} and {♦7, ♣5}
have equal rank multisets, and `is_straight` agrees on them. -/
theorem is_straight_ignores_suits_witness :
    (([⟨0, 5⟩, ⟨1, 7⟩] : List Card).map fun c => (c.rank : Nat)).Perm
        (([⟨2, 7⟩, ⟨3, 5⟩] : List Card).map fun c => (c.rank : Nat)) ∧
      is_straight [⟨0, 5⟩, ⟨1, 7⟩] 1 5 = is_straight [⟨2, 7⟩, ⟨3, 5⟩] 1 5 :=
  ⟨by decide, is_straight_ignores_suits [⟨0, 5⟩, ⟨1, 7⟩] [⟨2, 7⟩, ⟨3, 5⟩] 1 5
    (by decide)⟩

/-- `max_pairs` is monotone in the joker count. -/
theorem max_pairs_mono (l : List Nat) : ∀ {a b : Nat}, a ≤ b →
    max_pairs l a ≤ max_pairs l b := by
  induction l with
  | nil =>
    intro a b h
    simpa [max_pairs] using Nat.div_le_div_right h
  | cons c rest ih =>
    intro a b h
    simp only [max_pairs]
    apply Finset.sup_le
    intro t ht
    rw [Finset.mem_range] at ht
    have h1 : max_pairs rest (a - t) ≤ max_pairs rest (b - t) := ih (by omega)
    have hmem : t ∈ Finset.range (b + 1) := Finset.mem_range.mpr (by omega)
    have h2 : (c + t) / 2 + max_pairs rest (b - t) ≤
        (Finset.range (b + 1)).sup fun t => (c + t) / 2 + max_pairs rest (b - t) :=
      Finset.le_sup (f := fun t => (c + t) / 2 + max_pairs rest (b - t)) hmem
    omega

/-- One extra joker gains at most one pair. -/
theorem max_pairs_succ_le (l : List Nat) : ∀ j : Nat,
    max_pairs l (j + 1) ≤ max_pairs l j + 1 := by
  induction l with
  | nil =>
    intro j
    simp only [max_pairs]
    omega
  | cons c rest ih =>
    intro j
    simp only [max_pairs]
    apply Finset.sup_le
    intro t ht
    rw [Finset.mem_range] at ht
    by_cases hle : t ≤ j
    · have he : j + 1 - t = (j - t) + 1 := by omega
      have h1 : max_pairs rest (j + 1 - t) ≤ max_pairs rest (j - t) + 1 := by
        rw [he]; exact ih (j - t)
      have hmem : t ∈ Finset.range (j + 1) := Finset.mem_range.mpr (by omega)
      have h2 : (c + t) / 2 + max_pairs rest (j - t) ≤
          (Finset.range (j + 1)).sup fun t => (c + t) / 2 + max_pairs rest (j - t) :=
        Finset.le_sup (f := fun t => (c + t) / 2 + max_pairs rest (j - t)) hmem
      omega
    · have ht1 : t = j + 1 := by omega
      subst ht1
      have hmem : j ∈ Finset.range (j + 1) := Finset.mem_range.mpr (by omega)
      have h2 : (c + j) / 2 + max_pairs rest (j - j) ≤
          (Finset.range (j + 1)).sup fun t => (c + t) / 2 + max_pairs rest (j - t) :=
        Finset.le_sup (f := fun t => (c + t) / 2 + max_pairs rest (j - t)) hmem
      have he : j + 1 - (j + 1) = j - j := by omega
      rw [he]
      omega

/-- Two extra jokers always gain at least one pair. -/
theorem max_pairs_two_add (l : List Nat) (j : Nat) :
    max_pairs l j + 1 ≤ max_pairs l (j + 2) := by
  cases l with
  | nil =>
    simp only [max_pairs]
    omega
  | cons c rest =>
    simp only [max_pairs]
    obtain ⟨t0, ht0, hsup⟩ := Finset.exists_mem_eq_sup (Finset.range (j + 1))
      (by simp) (fun t => (c + t) / 2 + max_pairs rest (j - t))
    rw [Finset.mem_range] at ht0
    rw [hsup]
    have hmem : t0 + 2 ∈ Finset.range (j + 2 + 1) := Finset.mem_range.mpr (by omega)
    have h2 : (c + (t0 + 2)) / 2 + max_pairs rest (j + 2 - (t0 + 2)) ≤
        (Finset.range (j + 2 + 1)).sup fun t => (c + t) / 2 + max_pairs rest (j + 2 - t) :=
      Finset.le_sup (f := fun t => (c + t) / 2 + max_pairs rest (j + 2 - t)) hmem
    have he : j + 2 - (t0 + 2) = j - t0 := by omega
    rw [he] at h2
    omega

/-- `t` extra jokers gain at least `t / 2` pairs. -/
theorem max_pairs_add_div_two : ∀ (t : Nat) (l : List Nat) (a : Nat),
    max_pairs l a + t / 2 ≤ max_pairs l (a + t)
  | 0, l, a => by simp
  | 1, l, a => by
    simpa using max_pairs_mono l (show a ≤ a + 1 by omega)
  | t + 2, l, a => by
    have h1 := max_pairs_add_div_two t l a
    have h2 := max_pairs_two_add l (a + t)
    have he : a + (t + 2) = a + t + 2 := by omega
    rw [he]
    omega

/-- The greedy total computed by the `is_n_pairs` loop (pairs found plus
half the leftover jokers) equals the maximum number of formable pairs. -/
theorem pairs_loop_eq_max_pairs : ∀ (l : List Nat) (j : Nat),
    (pairs_loop l j).1 + (pairs_loop l j).2 / 2 = max_pairs l j := by
  intro l
  induction l with
  | nil =>
    intro j
    simp [pairs_loop, max_pairs]
  | cons c rest ih =>
    intro j
    have ihj1 := ih (j - 1)
    have ihj := ih j
    by_cases h : c % 2 = 1 ∧ 0 < j
    · have hexp : pairs_loop (c :: rest) j =
          (c / 2 + 1 + (pairs_loop rest (j - 1)).1, (pairs_loop rest (j - 1)).2) := by
        simp [pairs_loop, h]
      rw [hexp]
      dsimp only
      simp only [max_pairs]
      have h1 := h.1
      have hj := h.2
      apply le_antisymm
      · have hmem : (1 : Nat) ∈ Finset.range (j + 1) := Finset.mem_range.mpr (by omega)
        have h2 : (c + 1) / 2 + max_pairs rest (j - 1) ≤
            (Finset.range (j + 1)).sup fun t => (c + t) / 2 + max_pairs rest (j - t) :=
          Finset.le_sup (f := fun t => (c + t) / 2 + max_pairs rest (j - t)) hmem
        omega
      · apply Finset.sup_le
        intro t ht
        rw [Finset.mem_range] at ht
        rcases Nat.eq_zero_or_pos t with h0 | hpos
        · subst h0
          simp only [Nat.add_zero, Nat.sub_zero]
          have h3 := max_pairs_succ_le rest (j - 1)
          have he : j - 1 + 1 = j := by omega
          rw [he] at h3
          omega
        · have h4 := max_pairs_add_div_two (t - 1) rest (j - t)
          have he : j - t + (t - 1) = j - 1 := by omega
          rw [he] at h4
          omega
    · have hexp : pairs_loop (c :: rest) j =
          (c / 2 + (pairs_loop rest j).1, (pairs_loop rest j).2) := by
        simp [pairs_loop, h]
      rw [hexp]
      dsimp only
      simp only [max_pairs]
      apply le_antisymm
      · have hmem : (0 : Nat) ∈ Finset.range (j + 1) := Finset.mem_range.mpr (by omega)
        have h2 : (c + 0) / 2 + max_pairs rest (j - 0) ≤
            (Finset.range (j + 1)).sup fun t => (c + t) / 2 + max_pairs rest (j - t) :=
          Finset.le_sup (f := fun t => (c + t) / 2 + max_pairs rest (j - t)) hmem
        simp only [Nat.add_zero, Nat.sub_zero] at h2
        omega
      · apply Finset.sup_le
        intro t ht
        rw [Finset.mem_range] at ht
        rw [not_and_or] at h
        rcases h with hodd | hj
        · have hc : c % 2 = 0 := by omega
          have h4 := max_pairs_add_div_two t rest (j - t)
          have he : j - t + t = j := by omega
          rw [he] at h4
          omega
        · have ht0 : t = 0 := by omega
          subst ht0
          simp only [Nat.add_zero, Nat.sub_zero]
          omega

/-- C5: `is_n_pairs cards n jokers` returns true exactly when the maximum
number of pairs formable from the rank histogram with the jokers as
wildcards reaches `n`; equivalently the greedy total of the loop (a joker
per odd count while jokers last, `count / 2` per rank, `leftover / 2` at
the end) is pair-maximal. -/
theorem is_n_pairs_iff_max_pairs (cards : List Card) (n j : Nat) :
    is_n_pairs cards n j = decide (n ≤ max_pairs (rank_counts cards) j) := by
  unfold is_n_pairs
  rw [← pairs_loop_eq_max_pairs (rank_counts cards) j]

/-- `nm_core` in closed arithmetic form: the first fill succeeds iff
`s0 + j ≥ n`, the same-rank leftover reaches `m` iff `s0 + j ≥ n + m`, and
the second slot reaches `m` iff `s1 + j ≥ m` plus the `n - s0` jokers the
first fill consumed. -/
theorem nm_core_char (s0 s1 n m j : Nat) :
    nm_core s0 s1 n m j = true ↔
      (n ≤ s0 + j ∧ (n + m ≤ s0 + j ∨ m + (n - s0) ≤ s1 + j)) := by
  unfold nm_core fill_with_jokers
  split_ifs <;> simp_all <;> split_ifs <;> simp_all <;> omega

/-- The rank histogram has length 13. -/
theorem rank_counts_length (cards : List Card) : (rank_counts cards).length = 13 := by
  simp [rank_counts, NUM_RANKS]

/-- Membership in the rank histogram is attaining some rank's count. -/
theorem mem_rank_counts (cards : List Card) (x : Nat) :
    x ∈ rank_counts cards ↔ ∃ r : Fin 13, rcount cards r = x := by
  unfold rank_counts NUM_RANKS
  constructor
  · intro hx
    rw [List.mem_map] at hx
    obtain ⟨r, hr, he⟩ := hx
    rw [List.mem_range] at hr
    exact ⟨⟨r, hr⟩, he⟩
  · rintro ⟨r, he⟩
    rw [List.mem_map]
    exact ⟨(r : Nat), List.mem_range.mpr r.isLt, he⟩

/-- For a duplicate-free list, the property count reaches 2 exactly when
two distinct members satisfy the property. -/
theorem two_le_countP_of_nodup (l : List Nat) (p : Nat → Bool) (hnd : l.Nodup) :
    2 ≤ l.countP p ↔
      ∃ r ∈ l, ∃ s ∈ l, r ≠ s ∧ p r = true ∧ p s = true := by
  induction l with
  | nil => simp
  | cons c rest ih =>
    rw [List.nodup_cons] at hnd
    obtain ⟨hc, hndr⟩ := hnd
    have ihr := ih hndr
    rw [List.countP_cons]
    constructor
    · intro h2
      by_cases hpc : p c = true
      · rw [if_pos hpc] at h2
        have h1 : 0 < rest.countP p := by omega
        obtain ⟨x, hx, hpx⟩ := List.countP_pos_iff.mp h1
        exact ⟨c, by simp, x, by simp [hx], fun he => hc (by rw [he]; exact hx),
          hpc, hpx⟩
      · rw [if_neg hpc] at h2
        have h1 : 2 ≤ rest.countP p := by omega
        obtain ⟨r, hr, s, hs, hrs, hpr, hps⟩ := ihr.mp h1
        exact ⟨r, by simp [hr], s, by simp [hs], hrs, hpr, hps⟩
    · rintro ⟨r, hr, s, hs, hrs, hpr, hps⟩
      rcases List.mem_cons.mp hr with her | hr2 <;>
        rcases List.mem_cons.mp hs with hes | hs2
      · exact absurd (her.trans hes.symm) hrs
      · subst her
        have h1 : 0 < rest.countP p := List.countP_pos_iff.mpr ⟨s, hs2, hps⟩
        rw [if_pos hpr]
        omega
      · subst hes
        have h1 : 0 < rest.countP p := List.countP_pos_iff.mpr ⟨r, hr2, hpr⟩
        rw [if_pos hps]
        omega
      · have h1 : 2 ≤ rest.countP p := ihr.mpr ⟨r, hr2, s, hs2, hrs, hpr, hps⟩
        split_ifs <;> omega

/-- Counting a value in the rank histogram counts the ranks attaining it. -/
theorem count_rank_counts (cards : List Card) (v : Nat) :
    (rank_counts cards).count v =
      (List.range 13).countP fun x => rcount cards x == v := by
  unfold rank_counts NUM_RANKS
  rw [List.count, List.countP_map]
  rfl

/-- Two distinct ranks attaining the same count make it a duplicate of the
histogram. -/
theorem count_two_of_two_ranks (cards : List Card) (v : Nat) (r s : Fin 13)
    (hrs : r ≠ s) (h1 : rcount cards r = v) (h2 : rcount cards s = v) :
    2 ≤ (rank_counts cards).count v := by
  rw [count_rank_counts]
  refine (two_le_countP_of_nodup _ _ (List.nodup_range 13)).mpr
    ⟨(r : Nat), List.mem_range.mpr r.isLt, (s : Nat), List.mem_range.mpr s.isLt,
      fun he => hrs (Fin.ext he), beq_iff_eq.mpr h1, beq_iff_eq.mpr h2⟩

/-- A count value occurring twice in the histogram is attained by two
distinct ranks. -/
theorem two_ranks_of_count_two (cards : List Card) (v : Nat)
    (h : 2 ≤ (rank_counts cards).count v) :
    ∃ r s : Fin 13, r ≠ s ∧ rcount cards r = v ∧ rcount cards s = v := by
  rw [count_rank_counts] at h
  obtain ⟨r, hr, s, hs, hrs, hpr, hps⟩ :=
    (two_le_countP_of_nodup _ _ (List.nodup_range 13)).mp h
  rw [List.mem_range] at hr hs
  exact ⟨⟨r, hr⟩, ⟨s, hs⟩, fun he => hrs (congrArg Fin.val he),
    beq_iff_eq.mp hpr, beq_iff_eq.mp hps⟩

/-- C6: for `n ≥ m`, `is_n_and_m_of_a_kind` returns true exactly when the
jokers can be split to lift one rank to at least `n` copies and a second
group (the same rank's leftover past `n`, or a different rank) to at least
`m` copies: the largest-first greedy on the sorted histogram decides
exactly this predicate. -/
theorem is_n_and_m_of_a_kind_iff_can_split (cards : List Card) (n m j : Nat)
    (h : m ≤ n) :
    is_n_and_m_of_a_kind cards n m j = true ↔ can_split cards n m j := by
  have hperm := List.perm_insertionSort (fun x y : Nat => y ≤ x) (rank_counts cards)
  have hlen : (List.insertionSort (fun x y : Nat => y ≤ x) (rank_counts cards)).length
      = 13 := by
    rw [hperm.length_eq, rank_counts_length]
  obtain ⟨a, b, t, hs⟩ : ∃ a b t,
      List.insertionSort (fun x y : Nat => y ≤ x) (rank_counts cards) = a :: b :: t := by
    rcases hsl : List.insertionSort (fun x y : Nat => y ≤ x) (rank_counts cards) with
      _ | ⟨a, _ | ⟨b, t⟩⟩
    · rw [hsl] at hlen; simp at hlen
    · rw [hsl] at hlen; simp at hlen
    · exact ⟨a, b, t, rfl⟩
  have hsorted : List.Sorted (fun x y : Nat => y ≤ x) (a :: b :: t) := by
    have h1 : IsTotal Nat (fun x y => y ≤ x) := ⟨fun x y => le_total y x⟩
    have h2 : IsTrans Nat (fun x y => y ≤ x) := ⟨fun x y z hxy hyz => le_trans hyz hxy⟩
    rw [← hs]
    exact List.sorted_insertionSort _ _
  have hperm2 : List.Perm (a :: b :: t) (rank_counts cards) := by
    rw [← hs]; exact hperm
  have hta : ∀ x ∈ b :: t, x ≤ a := (List.sorted_cons.mp hsorted).1
  have htb0 : ∀ x ∈ t, x ≤ b :=
    (List.sorted_cons.mp (List.sorted_cons.mp hsorted).2).1
  have htb : ∀ x ∈ b :: t, x ≤ b := by
    intro x hx
    rcases List.mem_cons.mp hx with he | hx2
    · omega
    · exact htb0 x hx2
  have hba : b ≤ a := hta b (by simp)
  have hmaxr : ∀ r : Fin 13, rcount cards r ≤ a := by
    intro r
    have hmem : rcount cards r ∈ a :: b :: t :=
      hperm2.mem_iff.mpr ((mem_rank_counts cards _).mpr ⟨r, rfl⟩)
    rcases List.mem_cons.mp hmem with he | h2
    · omega
    · exact hta _ h2
  have hex : ∃ r s : Fin 13, r ≠ s ∧ rcount cards r = a ∧ rcount cards s = b := by
    by_cases hab : a = b
    · subst hab
      have hc2 : 2 ≤ (rank_counts cards).count a := by
        rw [← hperm2.count_eq]
        simp [List.count_cons]
      obtain ⟨r, s, hrs, h1, h2⟩ := two_ranks_of_count_two cards a hc2
      exact ⟨r, s, hrs, h1, h2⟩
    · obtain ⟨r, hra⟩ := (mem_rank_counts cards a).mp (hperm2.mem_iff.mp (by simp))
      obtain ⟨s, hsb⟩ := (mem_rank_counts cards b).mp (hperm2.mem_iff.mp (by simp))
      exact ⟨r, s, fun he => hab (by rw [← hra, he, hsb]), hra, hsb⟩
  have hminb : ∀ r s : Fin 13, r ≠ s → rcount cards r ≤ b ∨ rcount cards s ≤ b := by
    intro r s hrs
    by_contra hcon
    push_neg at hcon
    obtain ⟨hbr, hbs⟩ := hcon
    have hvr : rcount cards r = a := by
      have hmem : rcount cards r ∈ a :: b :: t :=
        hperm2.mem_iff.mpr ((mem_rank_counts cards _).mpr ⟨r, rfl⟩)
      rcases List.mem_cons.mp hmem with he | h2
      · omega
      · have := htb _ h2; omega
    have hvs : rcount cards s = a := by
      have hmem : rcount cards s ∈ a :: b :: t :=
        hperm2.mem_iff.mpr ((mem_rank_counts cards _).mpr ⟨s, rfl⟩)
      rcases List.mem_cons.mp hmem with he | h2
      · omega
      · have := htb _ h2; omega
    have hc2 : 2 ≤ (rank_counts cards).count a :=
      count_two_of_two_ranks cards a r s hrs hvr hvs
    rw [← hperm2.count_eq] at hc2
    have hnotin : a ∉ b :: t := fun hmem => absurd (htb a hmem) (by omega)
    rw [List.count_cons_self, List.count_eq_zero.mpr hnotin] at hc2
    omega
  have hcode : is_n_and_m_of_a_kind cards n m j = nm_core a b n m j := by
    unfold is_n_and_m_of_a_kind
    rw [hs]
    rfl
  rw [hcode, nm_core_char]
  unfold can_split
  constructor
  · rintro ⟨hgate, hdisj⟩
    obtain ⟨r, s, hrs, hra, hsb⟩ := hex
    rcases hdisj with h1 | h2
    · exact Or.inl ⟨r, by omega⟩
    · exact Or.inr ⟨r, s, hrs, by omega⟩
  · rintro (⟨r, hr⟩ | ⟨r, s, hrs, hle⟩)
    · have := hmaxr r
      exact ⟨by omega, Or.inl (by omega)⟩
    · have h1 := hmaxr r
      have h2 := hmaxr s
      have h3 := hminb r s hrs
      refine ⟨by omega, Or.inr ?_⟩
      rcases h3 with h3 | h3 <;> omega

/-- Witness for C6 at a concrete input (scenario 5 of the spec): the hand
{suit 0 rank 0, suit 1 rank 1} with 3 jokers is a full house (n = 3,
m = 2), the jokers splitting 2 to rank 0 and 1 to rank 1. -/
theorem is_n_and_m_of_a_kind_iff_can_split_witness :
    (2 ≤ 3) ∧ is_n_and_m_of_a_kind [⟨0, 0⟩, ⟨1, 1⟩] 3 2 3 = true :=
  ⟨by omega,
    (is_n_and_m_of_a_kind_iff_can_split [⟨0, 0⟩, ⟨1, 1⟩] 3 2 3 (by omega)).mpr
      (Or.inr ⟨0, 1, by decide, by decide⟩)⟩

end Poker
